import Mathlib

/-!
Verification of the campus-insight document pipeline.

Shallow embedding of the chunking, indexing, retrieval, deletion and
answer-extraction logic of the repository (src/embeddings_search.py,
src/app.py, src/backend_main.py).  Python strings are modelled as
`List Char`, embedding vectors as `List ℚ`, and the persistent Chroma
collection as a list of entries.  External collaborators (the sentence
transformer, the Gemini model, OCR, the vector distance of the store)
enter as parameters.
-/

namespace CampusInsight

/-! ## Chunker (src/embeddings_search.py, `index_document` lines 12-13) -/

/-- The constant `chunk_size = 500` of `SemanticSearchEngine.index_document`
(src/embeddings_search.py line 12). -/
def chunkSize : Nat := 500

/-- Python `range(0, stop, step)` for `step > 0`: the arithmetic
progression 0, step, 2*step, ... of all multiples of `step` below `stop`;
it has `ceil(stop / step) = (stop + step - 1) / step` terms. -/
def pyRange (stop step : Nat) : List Nat :=
  List.range' 0 ((stop + step - 1) / step) step

/-- The chunking comprehension of `SemanticSearchEngine.index_document`
(src/embeddings_search.py line 13):
`[text[i:i+chunk_size] for i in range(0, len(text), chunk_size - 50)]`. -/
def chunkText (text : List Char) : List (List Char) :=
  (pyRange text.length (chunkSize - 50)).map (fun i => (text.drop i).take chunkSize)

/-- Concatenation of the non-overlap portions of a chunk list: the first
`chunk_size - 50` characters of every chunk, followed by the part of the
final chunk beyond that prefix. -/
def nonOverlapConcat (cs : List (List Char)) : List Char :=
  (cs.map (fun c => c.take (chunkSize - 50))).flatten
    ++ ((cs.getLast?.getD []).drop (chunkSize - 50))

/-! ## Index Store (the external Chroma collection, spec section 4.3) -/

/-- Chunk metadata as built by `process_file` (src/app.py lines 158-163). -/
structure Metadata where
  title : String
  source_url : String
  date : String
  category : String
deriving DecidableEq

/-- One stored row of the collection: id, embedding vector, document text
and metadata. -/
structure Entry where
  id : String
  embedding : List ℚ
  document : List Char
  metadata : Metadata
deriving DecidableEq

/-- Modelled from the spec: the Index Store upsert of one row, section 4.3
of the spec — "inserts or overwrites entries keyed by id ... a colliding
id overwrites in place (same semantics as a key-value map)". -/
def upsertOne (e : Entry) (store : List Entry) : List Entry :=
  if store.any (fun x => x.id = e.id) then
    store.map (fun x => if x.id = e.id then e else x)
  else store ++ [e]

/-- Modelled from the spec: the batch upsert of the Index Store, applied
row by row. -/
def upsert (rows : List Entry) (store : List Entry) : List Entry :=
  rows.foldl (fun s e => upsertOne e s) store

/-- Modelled from the spec: `delete(filter)` of the Index Store with an
equality filter on the `source_url` metadata field — "removes all entries
whose metadata matches `filter`.  No-op (not an error) if nothing
matches." -/
def deleteWhere (url : String) (store : List Entry) : List Entry :=
  store.filter (fun e => ¬ (e.metadata.source_url = url))

/-- Modelled from the spec: `count()` of the Index Store — "total entries
currently stored". -/
def countStore (store : List Entry) : Nat := store.length

/-- Ranking relation of the store: ascending reported distance. -/
def distLE (p q : Entry × ℚ) : Prop := p.2 ≤ q.2

instance : DecidableRel distLE := fun p q => inferInstanceAs (Decidable (p.2 ≤ q.2))

instance : IsTotal (Entry × ℚ) distLE := ⟨fun a b => le_total a.2 b.2⟩

instance : IsTrans (Entry × ℚ) distLE := ⟨fun _ _ _ h1 h2 => le_trans h1 h2⟩

/-- Modelled from the spec: `query(query_vector, k, filter)` of the Index
Store — the `k` nearest entries under the dissimilarity `dist`, ranked by
ascending distance; "if fewer than `k` entries exist, returns all
available, still ranked"; each returned row carries its reported
distance. -/
def queryStore (dist : List ℚ → List ℚ → ℚ) (qvec : List ℚ) (k : Nat)
    (filter : Option (Metadata → Bool)) (store : List Entry) : List (Entry × ℚ) :=
  let pool := match filter with
    | none => store
    | some f => store.filter (fun e => f e.metadata)
  ((pool.map (fun e => (e, dist qvec e.embedding))).insertionSort distLE).take k

/-! ## Retrieval Engine (src/embeddings_search.py) -/

/-- A chunk id as built on src/embeddings_search.py line 20: the document
title, an underscore, the chunk index, an underscore and the per-call
random uuid prefix. -/
def mkChunkId (title : String) (i : Nat) (suffix : String) : String :=
  title ++ "_" ++ toString i ++ "_" ++ suffix

/-- The rows upserted by one `index_document` call: one row per chunk,
with its generated id, its embedding, and the one metadata dict
replicated across all chunks (src/embeddings_search.py lines 18-27). -/
def indexRows (embed : List Char → List ℚ) (suffix : String)
    (metadata : Metadata) (chunks : List (List Char)) : List Entry :=
  chunks.enum.map (fun p =>
    { id := mkChunkId metadata.title p.1 suffix
      embedding := embed p.2
      document := p.2
      metadata := metadata })

/-- `SemanticSearchEngine.index_document` (src/embeddings_search.py lines
11-29): chunk the text, return without touching the store when no chunks
were produced, otherwise embed every chunk and upsert all rows.  The
external sentence transformer is the parameter `embed`; the uuid prefix
drawn for this call is the parameter `suffix`. -/
def index_document (embed : List Char → List ℚ) (suffix : String)
    (text : List Char) (metadata : Metadata) (store : List Entry) : List Entry :=
  let chunks := chunkText text
  if chunks = [] then store
  else upsert (indexRows embed suffix metadata chunks) store

/-- One mapped search result of `SemanticSearchEngine.search`
(src/embeddings_search.py lines 40-48). -/
structure CleanResult where
  id : String
  document : List Char
  metadata : Metadata
  relevance_score : ℚ
deriving DecidableEq

/-- `SemanticSearchEngine.search` (src/embeddings_search.py lines 31-49):
embed the query, ask the store for `n_results` nearest rows under the
optional metadata filter, and map each raw row into the public result
shape with relevance score `1 - distance`. -/
def search (dist : List ℚ → List ℚ → ℚ) (embed : List Char → List ℚ)
    (query : List Char) (n_results : Nat) (filters : Option (Metadata → Bool))
    (store : List Entry) : List CleanResult :=
  (queryStore dist (embed query) n_results filters store).map (fun p =>
    { id := p.1.id
      document := p.1.document
      metadata := p.1.metadata
      relevance_score := 1 - p.2 })

/-- `get_document_count` (src/embeddings_search.py lines 51-52):
passthrough to the count of the store. -/
def get_document_count (store : List Entry) : Nat := countStore store

/-- The target url built by `SemanticSearchEngine.delete_document`
(src/embeddings_search.py line 55). -/
def deleteTargetUrl (filename : String) : String :=
  "http://localhost:8000/files/" ++ filename

/-- `SemanticSearchEngine.delete_document` (src/embeddings_search.py lines
54-59): delete every stored row whose `source_url` equals the rebuilt
target url. -/
def delete_document (filename : String) (store : List Entry) : List Entry :=
  deleteWhere (deleteTargetUrl filename) store

/-! ## Answer Extractor (src/app.py lines 89-140) -/

/-- Python lower-casing of a string (ASCII data in this pipeline). -/
def pyLower (l : List Char) : List Char := l.map Char.toLower

/-- Outcome of calling a Python collaborator: a value, or a raised
exception. -/
inductive PyOutcome (α : Type) where
  | ok (a : α)
  | exc
deriving DecidableEq

/-- Value of a window of four digit characters. -/
def windowVal (w : Char × Char × Char × Char) : Nat :=
  (w.1.toNat - 48) * 1000 + (w.2.1.toNat - 48) * 100
    + (w.2.2.1.toNat - 48) * 10 + (w.2.2.2.toNat - 48)

/-- Whether four consecutive characters match the regex alternation
`199\d|200\d|201\d` of `calculate_smart_age` (src/app.py line 96). -/
def isYearMatch (c0 c1 c2 c3 : Char) : Bool :=
  (c0 = '1' ∧ c1 = '9' ∧ c2 = '9' ∧ c3.isDigit)
    ∨ (c0 = '2' ∧ c1 = '0' ∧ c2 = '0' ∧ c3.isDigit)
    ∨ (c0 = '2' ∧ c1 = '0' ∧ c2 = '1' ∧ c3.isDigit)

/-- Python re.findall over the pattern `199\d|200\d|201\d` with the
results already converted to numbers: scan left to right; at a match
consume the four matched characters and continue after them, otherwise
advance one character. -/
def findYears : List Char → List Nat
  | c0 :: c1 :: c2 :: c3 :: rest3 =>
    if isYearMatch c0 c1 c2 c3 then windowVal (c0, c1, c2, c3) :: findYears rest3
    else findYears (c1 :: c2 :: c3 :: rest3)
  | _ => []

/-- The `possible_ages` list of `calculate_smart_age` (src/app.py lines
98-102): the candidate ages `current_year - y` for every found year with
`1980 < y < current_year - 15`. -/
def possibleAges (currentYear : Nat) (text : List Char) : List Nat :=
  ((findYears text).filter
    (fun y => 1980 < y ∧ y < currentYear - 15)).map (fun y => currentYear - y)

/-- `calculate_smart_age` (src/app.py lines 89-109): find candidate birth
years, keep those with `1980 < y < current_year - 15`, and return the
string of the maximum age `current_year - y`, or nothing when no
candidate survives. -/
def calculate_smart_age (currentYear : Nat) (text : List Char) : Option (List Char) :=
  match (possibleAges currentYear text).max? with
  | some m => some (toString m).data
  | none => none

/-- Python `str.strip()`: remove leading and trailing whitespace. -/
def pyStrip (l : List Char) : List Char :=
  ((l.dropWhile Char.isWhitespace).reverse.dropWhile Char.isWhitespace).reverse

/-- The post-processing of the raw Gemini response on src/app.py line 133:
strip surrounding whitespace, then replace every double quote, every
single quote and every period character with the empty string (Python
str.replace replaces all occurrences, not only surrounding ones). -/
def cleanAnswer (raw : List Char) : List Char :=
  ((((pyStrip raw).filter (fun c => ¬ (c = Char.ofNat 34))).filter
    (fun c => ¬ (c = Char.ofNat 39))).filter (fun c => ¬ (c = '.')))

/-- The post-processing exactly as the verified claim words it: strip
SURROUNDING quote, period and whitespace characters only, leaving
interior characters alone.  Kept separate from `cleanAnswer` (the code)
to compare the two. -/
def specCleanAnswer (raw : List Char) : List Char :=
  let junk := fun (c : Char) =>
    c.isWhitespace ∨ c = Char.ofNat 34 ∨ c = Char.ofNat 39 ∨ c = '.'
  ((raw.dropWhile junk).reverse.dropWhile junk).reverse

/-- `get_ai_extraction` (src/app.py lines 111-140).  When the query
mentions an age and the deterministic year scan yields a result, that
result is returned at once; otherwise the external Gemini capability
`llm` is invoked on the query and the context truncated to 2000
characters.  A raised exception, a cleaned response containing the
sentinel None, or a cleaned response longer than 50 characters all yield
no answer.  The second component records whether the external capability
was invoked. -/
def get_ai_extraction (llm : List Char → List Char → PyOutcome (List Char))
    (currentYear : Nat) (text query : List Char) : Option (List Char) × Bool :=
  match (if "age".data <:+: pyLower query
         then calculate_smart_age currentYear text else none) with
  | some a => (some a, false)
  | none =>
    match llm query (text.take 2000) with
    | .exc => (none, true)
    | .ok raw =>
      let answer := cleanAnswer raw
      if "None".data <:+: answer ∨ answer.length > 50 then (none, true)
      else (some answer, true)

/-! ## Date extraction (src/app.py lines 73-83) -/

/-- Matcher for the regex `\d{2}/\d{2}/\d{4}` at one position. -/
def matchDDMMYYYY : List Char → Option (List Char)
  | d1 :: d2 :: s1 :: m1 :: m2 :: s2 :: y1 :: y2 :: y3 :: y4 :: _ =>
    if d1.isDigit ∧ d2.isDigit ∧ s1 = '/' ∧ m1.isDigit ∧ m2.isDigit ∧ s2 = '/'
        ∧ y1.isDigit ∧ y2.isDigit ∧ y3.isDigit ∧ y4.isDigit then
      some [d1, d2, s1, m1, m2, s2, y1, y2, y3, y4]
    else none
  | _ => none

/-- Matcher for the regex `\d{4}-\d{2}-\d{2}` at one position. -/
def matchYYYYMMDD : List Char → Option (List Char)
  | y1 :: y2 :: y3 :: y4 :: s1 :: m1 :: m2 :: s2 :: d1 :: d2 :: _ =>
    if y1.isDigit ∧ y2.isDigit ∧ y3.isDigit ∧ y4.isDigit ∧ s1 = '-'
        ∧ m1.isDigit ∧ m2.isDigit ∧ s2 = '-' ∧ d1.isDigit ∧ d2.isDigit then
      some [y1, y2, y3, y4, s1, m1, m2, s2, d1, d2]
    else none
  | _ => none

/-- The lower-cased three-letter month abbreviations of the third date
pattern. -/
def monthLowers : List (List Char) :=
  ["jan".data, "feb".data, "mar".data, "apr".data, "may".data, "jun".data,
   "jul".data, "aug".data, "sep".data, "oct".data, "nov".data, "dec".data]

/-- Matcher at one position for the case-insensitive regex
`(?:Jan|Feb|...|Dec)[a-z]*\s+\d{1,2},?\s+\d{4}`.  For this pattern the
greedy left-to-right reading is exact: letters, whitespace and digits are
disjoint character classes, so no backtracking can change the outcome. -/
def matchMonthName (l : List Char) : Option (List Char) :=
  match l with
  | c1 :: c2 :: c3 :: r0 =>
    if [c1.toLower, c2.toLower, c3.toLower] ∈ monthLowers then
      let tail := r0.takeWhile Char.isAlpha
      let r1 := r0.dropWhile Char.isAlpha
      let ws1 := r1.takeWhile Char.isWhitespace
      let r2 := r1.dropWhile Char.isWhitespace
      if ws1 = [] then none else
      match r2 with
      | e1 :: r3 =>
        if e1.isDigit then
          let day2 := match r3 with
            | e2 :: r4x => if e2.isDigit then ([e2], r4x) else ([], r3)
            | [] => (([] : List Char), r3)
          let com := match day2.2 with
            | c :: r5x => if c = ',' then ([c], r5x) else ([], day2.2)
            | [] => (([] : List Char), day2.2)
          let ws2 := com.2.takeWhile Char.isWhitespace
          let r6 := com.2.dropWhile Char.isWhitespace
          if ws2 = [] then none else
          match r6 with
          | y1 :: y2 :: y3 :: y4 :: _ =>
            if y1.isDigit ∧ y2.isDigit ∧ y3.isDigit ∧ y4.isDigit then
              some ([c1, c2, c3] ++ tail ++ ws1 ++ [e1] ++ day2.1 ++ com.1
                ++ ws2 ++ [y1, y2, y3, y4])
            else none
          | _ => none
        else none
      | [] => none
    else none
  | _ => none

/-- Python `re.search`: try the matcher at every start position from left
to right and return the first match. -/
def reSearch (m : List Char → Option (List Char)) : List Char → Option (List Char)
  | [] => m []
  | c :: rest =>
    match m (c :: rest) with
    | some r => some r
    | none => reSearch m rest

/-- `extract_date_from_text` (src/app.py lines 73-83): try the ordered
pattern list — `\d{2}/\d{2}/\d{4}`, then `\d{4}-\d{2}-\d{2}`, then the
textual month form — returning the first match of the first pattern that
matches anywhere; with no match at all, return the current processing
date `today`.  (src/backend_main.py lines 66-77 is the same function with
one extra textual pattern inserted before the month-first form.) -/
def extract_date_from_text (today : List Char) (text : List Char) : List Char :=
  match reSearch matchDDMMYYYY text with
  | some m => m
  | none =>
    match reSearch matchYYYYMMDD text with
    | some m => m
    | none =>
      match reSearch matchMonthName text with
      | some m => m
      | none => today

/-! ## Document Lifecycle Manager (src/app.py lines 142-169) -/

/-- The category keyword scan of `process_file` (src/app.py lines
152-156). -/
def categorize (text : List Char) : String :=
  let lower := pyLower text
  if ("resume".data <:+: lower) ∨ ("cv".data <:+: lower) then "Resume"
  else if "exam".data <:+: lower then "Exams"
  else if "fee".data <:+: lower then "Fees"
  else "General"

/-- The source locator stored for a file by `process_file` (src/app.py
line 160). -/
def processFileSourceUrl (filename : String) : String :=
  "http://localhost:8000/files/" ++ filename

/-- `process_file` (src/app.py lines 142-169).  `ocr` is the external OCR
collaborator outcome (the text field of processed_data: a raised
exception, a missing field, or the text); `idxExc` states whether the external
indexing call (embedding model or store upsert) raises.  Date and
category derivation are the pure scans above.  The whole body sits in a
try/except returning False, so the embedding is a total function — it
returns the success boolean, the resulting store, and whether indexing
was invoked. -/
def process_file (embed : List Char → List ℚ) (suffix : String)
    (ocr : PyOutcome (Option (List Char))) (idxExc : Bool)
    (fname fstem : String) (today : List Char) (store : List Entry) :
    Bool × List Entry × Bool :=
  match ocr with
  | .exc => (false, store, false)
  | .ok none => (false, store, false)
  | .ok (some text) =>
    if text = [] then (false, store, false)
    else
      let meta : Metadata :=
        { title := fstem
          source_url := processFileSourceUrl fname
          date := ⟨extract_date_from_text today text⟩
          category := categorize text }
      if idxExc then (false, store, true)
      else (true, index_document embed suffix text meta store, true)

/-! ## Search endpoint (src/app.py lines 265-297) -/

/-- The request body of the search endpoint (src/app.py lines 50-53). -/
structure SearchQuery where
  query : List Char
  filters : Option (Metadata → Bool)
  limit : Nat

/-- The response item shape of the search endpoint (src/app.py lines
58-66). -/
structure SearchResult where
  id : String
  title : String
  content : List Char
  source_url : String
  date : String
  relevance_score : ℚ
  category : String
  extracted_answer : Option (List Char)
deriving DecidableEq

/-- The `/api/search` endpoint `search_documents` (src/app.py lines
265-297): run the engine search with the request query and limit — the
request filters field is never forwarded — then map rows to the response
shape; only the first three results get an extracted answer (the thread
pool submits at most three futures and stores None for the rest; results
are joined back in ranked order). -/
def search_documents (dist : List ℚ → List ℚ → ℚ) (embed : List Char → List ℚ)
    (llm : List Char → List Char → PyOutcome (List Char)) (currentYear : Nat)
    (store : List Entry) (q : SearchQuery) : List SearchResult :=
  let results := search dist embed q.query q.limit none store
  results.enum.map (fun p =>
    { id := p.2.id
      title := p.2.metadata.title
      content := p.2.document
      source_url := p.2.metadata.source_url
      date := p.2.metadata.date
      relevance_score := p.2.relevance_score
      category := p.2.metadata.category
      extracted_answer :=
        if p.1 < 3 then (get_ai_extraction llm currentYear p.2.document q.query).1
        else none })

/-! ## All-digit four-character windows (for reasoning about the year
scan: every year the regex can find sits in some such window) -/

/-- Every window of four consecutive characters of the text. -/
def fourWindows : List Char → List (Char × Char × Char × Char)
  | c0 :: c1 :: c2 :: c3 :: rest =>
    (c0, c1, c2, c3) :: fourWindows (c1 :: c2 :: c3 :: rest)
  | _ => []

/-- The numeric values of all windows of four consecutive digit
characters: every four-digit year token of the text appears here. -/
def yearTokens (text : List Char) : List Nat :=
  (fourWindows text).filterMap (fun w =>
    if w.1.isDigit ∧ w.2.1.isDigit ∧ w.2.2.1.isDigit ∧ w.2.2.2.isDigit then
      some (windowVal w)
    else none)

/-! # Theorems -/

/-! ## Chunking lemmas -/

theorem chunkText_nil : chunkText [] = [] := by decide

theorem range'_map_add (s m step : Nat) :
    List.range' (s + step) m step = (List.range' s m step).map (fun i => i + step) := by
  induction m generalizing s with
  | zero => rfl
  | succ m ih =>
    rw [List.range'_succ, List.range'_succ, List.map_cons]
    exact congrArg (List.cons _) (ih (s + step))

set_option maxRecDepth 4000 in
theorem chunkText_cons (text : List Char) (h : text ≠ []) :
    chunkText text = text.take chunkSize :: chunkText (text.drop (chunkSize - 50)) := by
  have hL : 0 < text.length := List.length_pos.mpr h
  have hstep : chunkSize - 50 = 450 := rfl
  simp only [chunkText, pyRange, hstep]
  have hn : (text.length + 450 - 1) / 450 = ((text.length - 450 + 450 - 1) / 450) + 1 := by
    omega
  rw [hn, List.range'_succ]
  have hshift : List.range' 450 ((text.length - 450 + 450 - 1) / 450) 450
      = (List.range' 0 ((text.length - 450 + 450 - 1) / 450) 450).map (fun i => i + 450) := by
    simpa using range'_map_add 0 ((text.length - 450 + 450 - 1) / 450) 450
  rw [hshift, List.map_cons, List.map_map]
  refine congrArg₂ List.cons (by rw [List.drop_zero]) ?_
  rw [List.length_drop]
  refine congrArg (fun f => List.map f (List.range' 0 ((text.length - 450 + 450 - 1) / 450) 450))
    (funext (fun i => ?_))
  simp only [Function.comp_apply]
  rw [List.drop_drop, Nat.add_comm 450 i]

theorem chunkText_ne_nil (text : List Char) (h : text ≠ []) :
    chunkText text ≠ [] := by
  rw [chunkText_cons text h]
  exact List.cons_ne_nil _ _

theorem nonOverlapConcat_single (c : List Char) : nonOverlapConcat [c] = c := by
  simp [nonOverlapConcat]

theorem nonOverlapConcat_cons (c : List Char) (cs : List (List Char)) (h : cs ≠ []) :
    nonOverlapConcat (c :: cs) = c.take (chunkSize - 50) ++ nonOverlapConcat cs := by
  obtain ⟨d, ds, rfl⟩ := List.exists_cons_of_ne_nil h
  simp only [nonOverlapConcat, List.map_cons, List.flatten_cons, List.getLast?_cons_cons,
    List.append_assoc]

theorem chunkText_reconstruct (text : List Char) :
    nonOverlapConcat (chunkText text) = text := by
  generalize hL : text.length = L
  induction L using Nat.strong_induction_on generalizing text with
  | _ L ih =>
    by_cases h : text = []
    · subst h
      rw [chunkText_nil]
      rfl
    · rw [chunkText_cons text h]
      by_cases h2 : text.drop (chunkSize - 50) = []
      · rw [h2, chunkText_nil, nonOverlapConcat_single]
        have hle : text.length ≤ chunkSize := by
          have := List.drop_eq_nil_iff.mp h2
          omega
        exact List.take_of_length_le hle
      · rw [nonOverlapConcat_cons _ _ (chunkText_ne_nil _ h2)]
        rw [ih (text.drop (chunkSize - 50)).length ?_ _ rfl]
        · rw [List.take_take]
          have hmin : (chunkSize - 50) ⊓ chunkSize = chunkSize - 50 := by
            simp [chunkSize]
          rw [hmin, List.take_append_drop]
        · have hpos : 0 < text.length := List.length_pos.mpr h
          have h450 : chunkSize - 50 = 450 := rfl
          rw [List.length_drop, h450]
          omega

theorem chunkText_length_le (text : List Char) :
    ∀ c ∈ chunkText text, c.length ≤ chunkSize := by
  intro c hc
  simp only [chunkText, List.mem_map] at hc
  obtain ⟨i, _, rfl⟩ := hc
  simp [List.length_take]

/-- C1: chunking with size 500 and overlap 50 (step 450) produces only
chunks of length at most 500; concatenating the non-overlap portions (the
first 450 characters of each chunk plus the remainder of the final chunk)
reconstructs the text exactly; the empty text yields zero chunks, and
`index_document` on the empty text performs no store mutation. -/
theorem claim_C1_chunk_roundtrip (text : List Char) :
    ((chunkText text).all (fun c => c.length ≤ chunkSize))
    ∧ nonOverlapConcat (chunkText text) = text
    ∧ chunkText [] = []
    ∧ (∀ embed suffix meta store,
        index_document embed suffix [] meta store = store) := by
  refine ⟨?_, chunkText_reconstruct text, chunkText_nil, ?_⟩
  · rw [List.all_eq_true]
    intro c hc
    exact decide_eq_true (chunkText_length_le text c hc)
  · intro embed suffix meta store
    simp [index_document, chunkText_nil]

/-! ## Store and search lemmas -/

theorem queryStore_sorted (dist : List ℚ → List ℚ → ℚ) (qvec : List ℚ) (k : Nat)
    (filter : Option (Metadata → Bool)) (store : List Entry) :
    List.Sorted distLE (queryStore dist qvec k filter store) :=
  List.Pairwise.sublist (List.take_sublist _ _) (List.sorted_insertionSort distLE _)

theorem queryStore_length_le (dist : List ℚ → List ℚ → ℚ) (qvec : List ℚ) (k : Nat)
    (filter : Option (Metadata → Bool)) (store : List Entry) :
    (queryStore dist qvec k filter store).length ≤ k :=
  List.length_take_le _ _

theorem queryStore_mem (dist : List ℚ → List ℚ → ℚ) (qvec : List ℚ) (k : Nat)
    (filter : Option (Metadata → Bool)) (store : List Entry) (p : Entry × ℚ)
    (hp : p ∈ queryStore dist qvec k filter store) : p.1 ∈ store := by
  unfold queryStore at hp
  have h1 := List.mem_of_mem_take hp
  rw [List.mem_insertionSort] at h1
  obtain ⟨e, he, rfl⟩ := List.mem_map.mp h1
  cases filter with
  | none => exact he
  | some f => exact (List.mem_filter.mp he).1

/-- C2: every search result carries relevance score equal to one minus
the distance the store reported for that row, the result list is
non-increasing in relevance score, and at most `n_results` results are
returned. -/
theorem claim_C2_search_ranked (dist : List ℚ → List ℚ → ℚ)
    (embed : List Char → List ℚ) (query : List Char) (n_results : Nat)
    (filters : Option (Metadata → Bool)) (store : List Entry) :
    (search dist embed query n_results filters store).map (fun r => r.relevance_score)
      = (queryStore dist (embed query) n_results filters store).map (fun p => 1 - p.2)
    ∧ List.Sorted (fun a b => b ≤ a)
        ((search dist embed query n_results filters store).map (fun r => r.relevance_score))
    ∧ (search dist embed query n_results filters store).length ≤ n_results := by
  have hmap : (search dist embed query n_results filters store).map
      (fun r => r.relevance_score)
      = (queryStore dist (embed query) n_results filters store).map (fun p => 1 - p.2) := by
    unfold search
    rw [List.map_map]
    rfl
  refine ⟨hmap, ?_, ?_⟩
  · rw [hmap]
    exact List.Pairwise.map _ (fun a b h => sub_le_sub_left h 1)
      (queryStore_sorted dist (embed query) n_results filters store)
  · unfold search
    rw [List.length_map]
    exact queryStore_length_le dist (embed query) n_results filters store

/-! ## Upsert lemmas -/

theorem upsertOne_length_ge (e : Entry) (store : List Entry) :
    store.length ≤ (upsertOne e store).length := by
  unfold upsertOne
  split
  · rw [List.length_map]
  · rw [List.length_append]
    omega

theorem upsert_length_ge (rows : List Entry) : ∀ store : List Entry,
    store.length ≤ (upsert rows store).length := by
  induction rows with
  | nil => intro store; exact le_refl _
  | cons r rs ih =>
    intro store
    calc store.length ≤ (upsertOne r store).length := upsertOne_length_ge r store
    _ ≤ (upsert rs (upsertOne r store)).length := ih _

theorem upsertOne_fresh (e : Entry) (store : List Entry)
    (h : ∀ x ∈ store, ¬ x.id = e.id) : upsertOne e store = store ++ [e] := by
  unfold upsertOne
  rw [if_neg]
  intro hc
  rw [List.any_eq_true] at hc
  obtain ⟨x, hx, hx2⟩ := hc
  exact h x hx (by simpa using hx2)

theorem upsert_fresh (rows : List Entry) : ∀ store : List Entry,
    (∀ r ∈ rows, ∀ x ∈ store, ¬ r.id = x.id) →
    rows.Pairwise (fun a b => a.id ≠ b.id) →
    upsert rows store = store ++ rows := by
  induction rows with
  | nil => intro store _ _; simp [upsert]
  | cons r rs ih =>
    intro store h hnod
    have h1 : upsertOne r store = store ++ [r] :=
      upsertOne_fresh r store
        (fun x hx he => h r (List.mem_cons_self r rs) x hx he.symm)
    show upsert rs (upsertOne r store) = store ++ r :: rs
    rw [h1, ih (store ++ [r]) ?_ (List.pairwise_cons.mp hnod).2]
    · rw [List.append_assoc]
      rfl
    · intro x hx y hy
      rcases List.mem_append.mp hy with hys | hyr
      · exact h x (List.mem_cons_of_mem r hx) y hys
      · have hyx : y = r := by simpa using hyr
        subst hyx
        have := (List.pairwise_cons.mp hnod).1 x hx
        exact fun he => this he.symm

theorem mem_upsert_of_mem (rows : List Entry) : ∀ (store : List Entry) (x : Entry),
    (∀ r ∈ rows, ¬ r.id = x.id) → x ∈ store → x ∈ upsert rows store := by
  induction rows with
  | nil => intro store x _ hx; exact hx
  | cons r rs ih =>
    intro store x h hx
    show x ∈ upsert rs (upsertOne r store)
    refine ih (upsertOne r store) x (fun q hq => h q (List.mem_cons_of_mem r hq)) ?_
    unfold upsertOne
    split
    · have hne : ¬ x.id = r.id := fun he => h r (List.mem_cons_self r rs) he.symm
      exact List.mem_map.mpr ⟨x, hx, by rw [if_neg hne]⟩
    · exact List.mem_append_left _ hx

theorem mem_of_mem_upsert (rows : List Entry) : ∀ (store : List Entry) (x : Entry),
    x ∈ upsert rows store → x ∈ store ∨ x ∈ rows := by
  induction rows with
  | nil => intro store x hx; exact Or.inl hx
  | cons r rs ih =>
    intro store x hx
    rcases ih (upsertOne r store) x hx with h1 | h2
    · unfold upsertOne at h1
      split at h1
      · obtain ⟨a, ha, hax⟩ := List.mem_map.mp h1
        by_cases hc : a.id = r.id
        · rw [if_pos hc] at hax
          subst hax
          exact Or.inr (List.mem_cons_self _ _)
        · rw [if_neg hc] at hax
          subst hax
          exact Or.inl ha
      · rcases List.mem_append.mp h1 with h | h
        · exact Or.inl h
        · have : x = r := by simpa using h
          subst this
          exact Or.inr (List.mem_cons_self _ _)
    · exact Or.inr (List.mem_cons_of_mem r h2)

theorem upsert_length_lt (rows store : List Entry) (hne : rows ≠ [])
    (h : ∀ r ∈ rows, ∀ x ∈ store, ¬ r.id = x.id) :
    store.length < (upsert rows store).length := by
  cases rows with
  | nil => exact absurd rfl hne
  | cons r rs =>
    have h1 : upsertOne r store = store ++ [r] :=
      upsertOne_fresh r store
        (fun x hx he => h r (List.mem_cons_self r rs) x hx he.symm)
    show store.length < (upsert rs (upsertOne r store)).length
    calc store.length < (upsertOne r store).length := by
          rw [h1, List.length_append]
          simp
    _ ≤ _ := upsert_length_ge rs _

/-! ## indexRows lemmas -/

theorem indexRows_length (embed : List Char → List ℚ) (suffix : String)
    (meta : Metadata) (chunks : List (List Char)) :
    (indexRows embed suffix meta chunks).length = chunks.length := by
  simp [indexRows]

theorem mem_indexRows (embed : List Char → List ℚ) (suffix : String)
    (meta : Metadata) (chunks : List (List Char)) (r : Entry)
    (hr : r ∈ indexRows embed suffix meta chunks) :
    r.metadata = meta ∧ ∃ i, i < chunks.length ∧ r.id = mkChunkId meta.title i suffix := by
  unfold indexRows at hr
  obtain ⟨⟨i, c⟩, hp, rfl⟩ := List.mem_map.mp hr
  exact ⟨rfl, i, (List.mem_enum hp).1, rfl⟩

theorem enum_pairwise_fst_ne {α : Type} (l : List α) :
    l.enum.Pairwise (fun p q => p.1 ≠ q.1) := by
  have h1 : (l.enum.map Prod.fst).Nodup := by
    rw [List.enum_map_fst]
    exact List.nodup_range l.length
  exact List.pairwise_map.mp h1

theorem indexRows_pairwise (embed : List Char → List ℚ) (suffix : String)
    (meta : Metadata) (chunks : List (List Char))
    (hnod : ∀ i < chunks.length, ∀ j < chunks.length, i ≠ j →
      mkChunkId meta.title i suffix ≠ mkChunkId meta.title j suffix) :
    (indexRows embed suffix meta chunks).Pairwise (fun a b => a.id ≠ b.id) := by
  unfold indexRows
  rw [List.pairwise_map]
  refine List.Pairwise.imp_of_mem ?_ (enum_pairwise_fst_ne chunks)
  intro p q hp hq hne
  obtain ⟨i, c⟩ := p
  obtain ⟨j, d⟩ := q
  exact hnod i (List.mem_enum hp).1 j (List.mem_enum hq).1 hne

theorem index_document_eq_upsert (embed : List Char → List ℚ) (suffix : String)
    (text : List Char) (meta : Metadata) (store : List Entry) :
    index_document embed suffix text meta store
      = upsert (indexRows embed suffix meta (chunkText text)) store := by
  show (if chunkText text = [] then store
      else upsert (indexRows embed suffix meta (chunkText text)) store)
    = upsert (indexRows embed suffix meta (chunkText text)) store
  split
  · next h =>
    rw [h]
    simp [indexRows, upsert]
  · rfl

theorem deleteWhere_idem (url : String) (s : List Entry) :
    deleteWhere url (deleteWhere url s) = deleteWhere url s := by
  unfold deleteWhere
  rw [List.filter_filter]
  exact congrArg (fun p => List.filter p s) (funext (fun e => Bool.and_self _))

theorem search_not_deleted (dist : List ℚ → List ℚ → ℚ) (embed : List Char → List ℚ)
    (qtext : List Char) (n : Nat) (url : String) (store : List Entry) :
    ((search dist embed qtext n none (deleteWhere url store)).all
      (fun r => ¬ (r.metadata.source_url = url))) = true := by
  rw [List.all_eq_true]
  intro r hr
  rw [decide_eq_true_eq]
  unfold search at hr
  obtain ⟨p, hp, rfl⟩ := List.mem_map.mp hr
  have h1 : p.1 ∈ deleteWhere url store := queryStore_mem _ _ _ _ _ _ hp
  unfold deleteWhere at h1
  have h2 := (List.mem_filter.mp h1).2
  simpa using h2

/-- C3: with two documents of distinct source locators indexed into an
empty store — the random chunk ids being collision-free, hypotheses
hnod1, hnod2, hcross — deleting the first filename filters by exactly the
source locator stored at index time, search never returns a row bearing
the deleted locator, the count drops by exactly the chunk count of the
deleted document, and a second delete of the same filename is a no-op. -/
theorem claim_C3_delete_document (embed : List Char → List ℚ)
    (dist : List ℚ → List ℚ → ℚ) (sfx1 sfx2 fname1 : String)
    (meta1 meta2 : Metadata) (text1 text2 qtext : List Char) (n : Nat)
    (hm1 : meta1.source_url = processFileSourceUrl fname1)
    (hurl : ¬ meta2.source_url = meta1.source_url)
    (hnod1 : ∀ i < (chunkText text1).length, ∀ j < (chunkText text1).length,
      i ≠ j → mkChunkId meta1.title i sfx1 ≠ mkChunkId meta1.title j sfx1)
    (hnod2 : ∀ i < (chunkText text2).length, ∀ j < (chunkText text2).length,
      i ≠ j → mkChunkId meta2.title i sfx2 ≠ mkChunkId meta2.title j sfx2)
    (hcross : ∀ i < (chunkText text2).length, ∀ j < (chunkText text1).length,
      mkChunkId meta2.title i sfx2 ≠ mkChunkId meta1.title j sfx1) :
    deleteTargetUrl fname1 = processFileSourceUrl fname1
    ∧ ((search dist embed qtext n none
        (delete_document fname1 (index_document embed sfx2 text2 meta2
          (index_document embed sfx1 text1 meta1 [])))).all
        (fun r => ¬ (r.metadata.source_url = deleteTargetUrl fname1))) = true
    ∧ countStore (delete_document fname1 (index_document embed sfx2 text2 meta2
          (index_document embed sfx1 text1 meta1 [])))
        = countStore (index_document embed sfx2 text2 meta2
            (index_document embed sfx1 text1 meta1 [])) - (chunkText text1).length
    ∧ delete_document fname1 (delete_document fname1
          (index_document embed sfx2 text2 meta2
            (index_document embed sfx1 text1 meta1 [])))
        = delete_document fname1 (index_document embed sfx2 text2 meta2
            (index_document embed sfx1 text1 meta1 [])) := by
  have hst1 : index_document embed sfx1 text1 meta1 []
      = indexRows embed sfx1 meta1 (chunkText text1) := by
    rw [index_document_eq_upsert,
      upsert_fresh _ [] (fun r _ x hx => absurd hx (List.not_mem_nil x))
        (indexRows_pairwise _ _ _ _ hnod1)]
    exact List.nil_append _
  have hfresh2 : ∀ r ∈ indexRows embed sfx2 meta2 (chunkText text2),
      ∀ x ∈ indexRows embed sfx1 meta1 (chunkText text1), ¬ r.id = x.id := by
    intro r hr x hx
    obtain ⟨hmr, i, hi, hidr⟩ := mem_indexRows _ _ _ _ _ hr
    obtain ⟨hmx, j, hj, hidx⟩ := mem_indexRows _ _ _ _ _ hx
    rw [hidr, hidx]
    exact hcross i hi j hj
  have hst2 : index_document embed sfx2 text2 meta2
        (indexRows embed sfx1 meta1 (chunkText text1))
      = indexRows embed sfx1 meta1 (chunkText text1)
        ++ indexRows embed sfx2 meta2 (chunkText text2) := by
    rw [index_document_eq_upsert]
    exact upsert_fresh _ _ hfresh2 (indexRows_pairwise _ _ _ _ hnod2)
  have htgt : deleteTargetUrl fname1 = processFileSourceUrl fname1 := rfl
  have hfilter1 : (indexRows embed sfx1 meta1 (chunkText text1)).filter
      (fun e => ¬ (e.metadata.source_url = deleteTargetUrl fname1)) = [] := by
    rw [List.filter_eq_nil_iff]
    intro e he
    obtain ⟨hme, _⟩ := mem_indexRows _ _ _ _ _ he
    simp [hme, hm1, htgt]
  have hfilter2 : (indexRows embed sfx2 meta2 (chunkText text2)).filter
      (fun e => ¬ (e.metadata.source_url = deleteTargetUrl fname1))
      = indexRows embed sfx2 meta2 (chunkText text2) := by
    rw [List.filter_eq_self]
    intro e he
    obtain ⟨hme, _⟩ := mem_indexRows _ _ _ _ _ he
    simp only [hme, htgt, ← hm1, decide_eq_true_eq]
    exact hurl
  refine ⟨htgt, ?_, ?_, ?_⟩
  · exact search_not_deleted dist embed qtext n (deleteTargetUrl fname1) _
  · rw [hst1, hst2]
    unfold delete_document deleteWhere countStore
    rw [List.filter_append, hfilter1, hfilter2, List.nil_append, List.length_append,
      indexRows_length, indexRows_length]
    omega
  · exact deleteWhere_idem _ _

theorem claim_C3_witness :
    countStore (delete_document "a.pdf"
        (index_document (fun _ => []) "bbbb" "world".data
          { title := "b", source_url := "http://localhost:8000/files/b.pdf",
            date := "d", category := "General" }
          (index_document (fun _ => []) "aaaa" "hello".data
            { title := "a", source_url := "http://localhost:8000/files/a.pdf",
              date := "d", category := "General" } [])))
      = countStore (index_document (fun _ => []) "bbbb" "world".data
          { title := "b", source_url := "http://localhost:8000/files/b.pdf",
            date := "d", category := "General" }
          (index_document (fun _ => []) "aaaa" "hello".data
            { title := "a", source_url := "http://localhost:8000/files/a.pdf",
              date := "d", category := "General" } []))
        - (chunkText "hello".data).length :=
  (claim_C3_delete_document (fun _ => []) (fun _ _ => 0) "aaaa" "bbbb" "a.pdf"
    { title := "a", source_url := "http://localhost:8000/files/a.pdf",
      date := "d", category := "General" }
    { title := "b", source_url := "http://localhost:8000/files/b.pdf",
      date := "d", category := "General" }
    "hello".data "world".data "q".data 5
    (by decide) (by decide) (by decide) (by decide) (by decide)).2.2.1

/-! ## Chunk id lemmas and re-indexing -/

theorem mkChunkId_suffix_ne (t1 t2 : String) (i j : Nat) (s1 s2 : String)
    (hlen : s1.length = s2.length) (hne : s1 ≠ s2) :
    mkChunkId t1 i s1 ≠ mkChunkId t2 j s2 := by
  intro h
  apply hne
  have hd := congrArg String.data h
  simp only [mkChunkId, String.data_append] at hd
  have hlen2 : s1.data.length = s2.data.length := hlen
  exact String.ext (List.append_inj' hd hlen2).2

/-- C4: the ids generated by one `index_document` call have the form
title, underscore, chunk index, underscore, random suffix; two calls
whose random suffixes differ (uuid prefixes have a fixed length) generate
disjoint id sets, so re-indexing the same document upserts entirely new
rows: every row of the first pass is still present afterwards and the
stored chunk count strictly increases. -/
theorem claim_C4_reindex_accumulates (embed : List Char → List ℚ)
    (sfx1 sfx2 : String) (text : List Char) (meta : Metadata)
    (htext : text ≠ []) (hlen : sfx1.length = sfx2.length) (hne : sfx1 ≠ sfx2) :
    (indexRows embed sfx2 meta (chunkText text)).map (fun e => e.id)
      = (List.range (chunkText text).length).map
          (fun i => meta.title ++ "_" ++ toString i ++ "_" ++ sfx2)
    ∧ (∀ i j : Nat, mkChunkId meta.title i sfx1 ≠ mkChunkId meta.title j sfx2)
    ∧ (∀ e ∈ index_document embed sfx1 text meta [],
        e ∈ index_document embed sfx2 text meta (index_document embed sfx1 text meta []))
    ∧ countStore (index_document embed sfx1 text meta [])
        < countStore (index_document embed sfx2 text meta
            (index_document embed sfx1 text meta [])) := by
  have hcross : ∀ i j : Nat, mkChunkId meta.title i sfx1 ≠ mkChunkId meta.title j sfx2 :=
    fun i j => mkChunkId_suffix_ne _ _ i j sfx1 sfx2 hlen hne
  have hmemst1 : ∀ e ∈ index_document embed sfx1 text meta [],
      ∃ jj, e.id = mkChunkId meta.title jj sfx1 := by
    intro e he
    rw [index_document_eq_upsert] at he
    rcases mem_of_mem_upsert _ [] e he with h0 | h1
    · exact absurd h0 (List.not_mem_nil e)
    · obtain ⟨hme, jj, hjj, hid⟩ := mem_indexRows _ _ _ _ _ h1
      exact ⟨jj, hid⟩
  have hfresh : ∀ r ∈ indexRows embed sfx2 meta (chunkText text),
      ∀ x ∈ index_document embed sfx1 text meta [], ¬ r.id = x.id := by
    intro r hr x hx
    obtain ⟨hmr, i, hi, hidr⟩ := mem_indexRows _ _ _ _ _ hr
    obtain ⟨jj, hidx⟩ := hmemst1 x hx
    rw [hidr, hidx]
    exact fun hcontr => hcross jj i hcontr.symm
  refine ⟨?_, hcross, ?_, ?_⟩
  · unfold indexRows
    rw [List.map_map, ← List.enum_map_fst (chunkText text), List.map_map]
    rfl
  · intro e he
    rw [index_document_eq_upsert embed sfx2]
    exact mem_upsert_of_mem _ _ e (fun r hr => hfresh r hr e he) he
  · rw [index_document_eq_upsert embed sfx2]
    unfold countStore
    have hpos : 0 < (chunkText text).length :=
      List.length_pos.mpr (chunkText_ne_nil text htext)
    have hlenrows := indexRows_length embed sfx2 meta (chunkText text)
    refine upsert_length_lt _ _ (fun hnil => ?_) hfresh
    rw [hnil] at hlenrows
    simp only [List.length_nil] at hlenrows
    omega

theorem claim_C4_witness :
    countStore (index_document (fun _ => []) "aaaaaaaa" "hi".data
        { title := "t", source_url := "u", date := "d", category := "c" } [])
      < countStore (index_document (fun _ => []) "bbbbbbbb" "hi".data
          { title := "t", source_url := "u", date := "d", category := "c" }
          (index_document (fun _ => []) "aaaaaaaa" "hi".data
            { title := "t", source_url := "u", date := "d", category := "c" } [])) :=
  (claim_C4_reindex_accumulates (fun _ => []) "aaaaaaaa" "bbbbbbbb" "hi".data
    { title := "t", source_url := "u", date := "d", category := "c" }
    (by decide) (by decide) (by decide)).2.2.2

/-! ## Age extraction lemmas -/

theorem char_digit_bounds (c : Char) (h : c.isDigit = true) :
    48 ≤ c.toNat ∧ c.toNat ≤ 57 := by
  simp only [Char.isDigit, Bool.and_eq_true, decide_eq_true_eq] at h
  exact h

theorem isYearMatch_bounds (c0 c1 c2 c3 : Char) (h : isYearMatch c0 c1 c2 c3 = true) :
    (c0.isDigit = true ∧ c1.isDigit = true ∧ c2.isDigit = true ∧ c3.isDigit = true)
    ∧ 1990 ≤ windowVal (c0, c1, c2, c3) ∧ windowVal (c0, c1, c2, c3) ≤ 2019 := by
  simp only [isYearMatch, decide_eq_true_eq] at h
  rcases h with ⟨h0, h1, h2, h3⟩ | ⟨h0, h1, h2, h3⟩ | ⟨h0, h1, h2, h3⟩ <;>
    obtain ⟨d1, d2⟩ := char_digit_bounds c3 h3 <;>
    subst h0 <;> subst h1 <;> subst h2 <;>
    refine ⟨⟨by decide, by decide, by decide, h3⟩, ?_, ?_⟩ <;>
    simp only [windowVal, show ('1' : Char).toNat = 49 from rfl,
      show ('9' : Char).toNat = 57 from rfl, show ('2' : Char).toNat = 50 from rfl,
      show ('0' : Char).toNat = 48 from rfl] <;>
    omega

theorem fourWindows_suffix (c : Char) (l : List Char) :
    ∀ w ∈ fourWindows l, w ∈ fourWindows (c :: l) := by
  intro w hw
  cases l with
  | nil => simp [fourWindows] at hw
  | cons c1 rest =>
    cases rest with
    | nil => simp [fourWindows] at hw
    | cons c2 rest2 =>
      cases rest2 with
      | nil => simp [fourWindows] at hw
      | cons c3 rest3 => exact List.mem_cons_of_mem _ hw

theorem yearTokens_mono (l1 l2 : List Char)
    (hsub : ∀ w ∈ fourWindows l1, w ∈ fourWindows l2) :
    ∀ y ∈ yearTokens l1, y ∈ yearTokens l2 := by
  intro y hy
  unfold yearTokens at hy ⊢
  obtain ⟨w, hw, hsome⟩ := List.mem_filterMap.mp hy
  exact List.mem_filterMap.mpr ⟨w, hsub w hw, hsome⟩

theorem findYears_mem_bounds (l : List Char) :
    ∀ y ∈ findYears l, y ∈ yearTokens l ∧ 1990 ≤ y ∧ y ≤ 2019 := by
  induction l using findYears.induct with
  | case1 c0 c1 c2 c3 rest3 hmatch ih =>
    intro y hy
    rw [findYears, if_pos hmatch] at hy
    obtain ⟨hd, hlo, hhi⟩ := isYearMatch_bounds c0 c1 c2 c3 hmatch
    rcases List.mem_cons.mp hy with hyv | hyr
    · subst hyv
      refine ⟨?_, hlo, hhi⟩
      unfold yearTokens
      refine List.mem_filterMap.mpr ⟨(c0, c1, c2, c3), ?_, ?_⟩
      · show (c0, c1, c2, c3) ∈ fourWindows (c0 :: c1 :: c2 :: c3 :: rest3)
        rw [fourWindows]
        exact List.mem_cons_self _ _
      · rw [if_pos]
        exact hd
    · obtain ⟨hmem, hb⟩ := ih y hyr
      refine ⟨?_, hb⟩
      have s1 := fourWindows_suffix c3 rest3
      have s2 := fourWindows_suffix c2 (c3 :: rest3)
      have s3 := fourWindows_suffix c1 (c2 :: c3 :: rest3)
      have s4 := fourWindows_suffix c0 (c1 :: c2 :: c3 :: rest3)
      exact yearTokens_mono _ _ (fun w hw => s4 w (s3 w (s2 w (s1 w hw)))) y hmem
  | case2 c0 c1 c2 c3 rest3 hmatch ih =>
    intro y hy
    rw [findYears, if_neg hmatch] at hy
    obtain ⟨hmem, hb⟩ := ih y hy
    exact ⟨yearTokens_mono _ _ (fourWindows_suffix c0 (c1 :: c2 :: c3 :: rest3)) y hmem, hb⟩
  | case3 x h =>
    intro y hy
    rw [findYears.eq_def] at hy
    split at hy
    · next c0 c1 c2 c3 rest3 =>
      exact absurd rfl (h c0 c1 c2 c3 rest3)
    · simp at hy

/-- C5: whenever the lower-cased query contains the word age and the
deterministic year scan finds at least one qualifying year, the extractor
returns the string of the maximum candidate age without invoking the
external Gemini capability — and in particular, for text containing the
address john.1999@mail.com with current year 2025 it returns 26. -/
theorem claim_C5_age_shortcircuit (currentYear : Nat) (text query : List Char)
    (hq : "age".data <:+: pyLower query)
    (hy : ∃ y ∈ findYears text, 1980 < y ∧ y < currentYear - 15) :
    (∃ m, (possibleAges currentYear text).max? = some m
      ∧ m ∈ possibleAges currentYear text
      ∧ (∀ a ∈ possibleAges currentYear text, a ≤ m)
      ∧ ∀ llm, get_ai_extraction llm currentYear text query
          = (some (toString m).data, false))
    ∧ ∀ llm, get_ai_extraction llm 2025 "john.1999@mail.com".data
        "What is the age?".data = (some "26".data, false) := by
  constructor
  · obtain ⟨y, hy1, hy2⟩ := hy
    have hne : possibleAges currentYear text ≠ [] := by
      intro h0
      have hf : y ∈ (findYears text).filter
          (fun y => 1980 < y ∧ y < currentYear - 15) :=
        List.mem_filter.mpr ⟨hy1, decide_eq_true hy2⟩
      have hmem : currentYear - y ∈ possibleAges currentYear text :=
        List.mem_map_of_mem _ hf
      rw [h0] at hmem
      exact List.not_mem_nil _ hmem
    obtain ⟨m, hm⟩ : ∃ m, (possibleAges currentYear text).max? = some m := by
      cases hages : possibleAges currentYear text with
      | nil => exact absurd hages hne
      | cons a as => exact ⟨_, rfl⟩
    have hmem : m ∈ possibleAges currentYear text :=
      List.max?_mem (fun a b => max_choice a b) hm
    have hle : ∀ a ∈ possibleAges currentYear text, a ≤ m :=
      (List.max?_le_iff (fun a b c => max_le_iff) hm).mp (le_refl m)
    refine ⟨m, hm, hmem, hle, ?_⟩
    intro llm
    unfold get_ai_extraction
    rw [if_pos hq]
    unfold calculate_smart_age
    rw [hm]
  · intro llm
    rfl

theorem claim_C5_witness :
    get_ai_extraction (fun _ _ => PyOutcome.exc) 2025 "john.1999@mail.com".data
      "What is the age?".data = (some "26".data, false) :=
  (claim_C5_age_shortcircuit 2025 "john.1999@mail.com".data "What is the age?".data
    (by decide) (by decide)).2 (fun _ _ => PyOutcome.exc)

/-- C10: the deterministic year scan only recognizes tokens of the decades
199x, 200x and 201x (and then filters by the 1980 and current-year-minus-15
band), so on a text whose four-digit tokens all lie outside 1990-2019 —
such as 1985 or 2021 — `calculate_smart_age` yields nothing and
`get_ai_extraction` falls through to the external Gemini path. -/
theorem claim_C10_out_of_band_years (currentYear : Nat) (text query : List Char)
    (llm : List Char → List Char → PyOutcome (List Char))
    (h : ∀ v ∈ yearTokens text, v < 1990 ∨ 2019 < v) :
    calculate_smart_age currentYear text = none
    ∧ (get_ai_extraction llm currentYear text query).2 = true
    ∧ calculate_smart_age 2025 "born 1985, joined 2021".data = none := by
  have hfind : findYears text = [] := by
    cases hf : findYears text with
    | nil => rfl
    | cons y ys =>
      have hy := findYears_mem_bounds text y (hf ▸ List.mem_cons_self y ys)
      rcases h y hy.1 with h1 | h1 <;> omega
  have hcalc : calculate_smart_age currentYear text = none := by
    unfold calculate_smart_age possibleAges
    rw [hfind]
    rfl
  refine ⟨hcalc, ?_, by decide⟩
  have hdet : (if "age".data <:+: pyLower query
      then calculate_smart_age currentYear text else none) = none := by
    split
    · exact hcalc
    · rfl
  unfold get_ai_extraction
  rw [hdet]
  cases hllm : llm query (text.take 2000) with
  | exc => rfl
  | ok raw =>
    show (if "None".data <:+: cleanAnswer raw ∨ (cleanAnswer raw).length > 50
        then ((none : Option (List Char)), true)
        else (some (cleanAnswer raw), true)).2 = true
    split <;> rfl

theorem claim_C10_witness :
    calculate_smart_age 2025 "born 1985, joined 2021".data = none :=
  (claim_C10_out_of_band_years 2025 "born 1985, joined 2021".data "the age?".data
    (fun _ _ => PyOutcome.exc) (by decide)).1

/-! ## Date extraction, lifecycle, LLM post-processing, filters -/

/-- C6: date extraction tries the patterns in order — DD/MM/YYYY first,
then YYYY-MM-DD, then the textual month form — and returns the first
match of the first matching pattern; with no match it returns the current
processing date rather than failing; and a text containing both
15/03/2024 and March 20, 2024 yields 15/03/2024 even though the textual
date appears first in the text. -/
theorem claim_C6_date_priority (today text : List Char) :
    (∀ m, reSearch matchDDMMYYYY text = some m →
      extract_date_from_text today text = m)
    ∧ (∀ m, reSearch matchDDMMYYYY text = none →
        reSearch matchYYYYMMDD text = some m →
        extract_date_from_text today text = m)
    ∧ (∀ m, reSearch matchDDMMYYYY text = none →
        reSearch matchYYYYMMDD text = none →
        reSearch matchMonthName text = some m →
        extract_date_from_text today text = m)
    ∧ (reSearch matchDDMMYYYY text = none →
        reSearch matchYYYYMMDD text = none →
        reSearch matchMonthName text = none →
        extract_date_from_text today text = today)
    ∧ ("15/03/2024".data
        <:+: "Results announced March 20, 2024 for exams held 15/03/2024".data
      ∧ "March 20, 2024".data
        <:+: "Results announced March 20, 2024 for exams held 15/03/2024".data
      ∧ extract_date_from_text today
          "Results announced March 20, 2024 for exams held 15/03/2024".data
        = "15/03/2024".data) := by
  refine ⟨?_, ?_, ?_, ?_, by decide, by decide, ?_⟩
  · intro m h1
    unfold extract_date_from_text
    rw [h1]
  · intro m h1 h2
    unfold extract_date_from_text
    rw [h1, h2]
  · intro m h1 h2 h3
    unfold extract_date_from_text
    rw [h1, h2, h3]
  · intro h1 h2 h3
    unfold extract_date_from_text
    rw [h1, h2, h3]
  · rfl

theorem claim_C6_witness :
    extract_date_from_text "TODAY".data "due 2024-03-15 ok".data = "2024-03-15".data
    ∧ extract_date_from_text "TODAY".data "nothing here".data = "TODAY".data :=
  ⟨(claim_C6_date_priority "TODAY".data "due 2024-03-15 ok".data).2.1
      "2024-03-15".data (by decide) (by decide),
   (claim_C6_date_priority "TODAY".data "nothing here".data).2.2.2.1
      (by decide) (by decide) (by decide)⟩

/-- C7: `process_file` is a total boolean-returning function — every
exception is caught.  It returns false without indexing when the OCR
collaborator raises, yields no text field, or yields empty text; it
returns false when the indexing call raises (indexing invoked, store
unchanged); and it returns true exactly when the text was non-empty and
the indexing call succeeded, in which case it indexes with the derived
metadata. -/
theorem claim_C7_process_file_totality (embed : List Char → List ℚ) (suffix : String)
    (idxExc : Bool) (fname fstem : String) (today : List Char) (store : List Entry)
    (text : List Char) :
    process_file embed suffix PyOutcome.exc idxExc fname fstem today store
      = (false, store, false)
    ∧ process_file embed suffix (PyOutcome.ok none) idxExc fname fstem today store
      = (false, store, false)
    ∧ process_file embed suffix (PyOutcome.ok (some [])) idxExc fname fstem today store
      = (false, store, false)
    ∧ (text ≠ [] →
        process_file embed suffix (PyOutcome.ok (some text)) true fname fstem today store
          = (false, store, true))
    ∧ (text ≠ [] →
        process_file embed suffix (PyOutcome.ok (some text)) false fname fstem today store
          = (true, index_document embed suffix text
              { title := fstem
                source_url := processFileSourceUrl fname
                date := ⟨extract_date_from_text today text⟩
                category := categorize text } store, true))
    ∧ (∀ ocr : PyOutcome (Option (List Char)),
        (process_file embed suffix ocr idxExc fname fstem today store).1 = true →
        ∃ t, t ≠ [] ∧ ocr = PyOutcome.ok (some t) ∧ idxExc = false) := by
  refine ⟨rfl, rfl, rfl, ?_, ?_, ?_⟩
  · intro h
    simp [process_file, h]
  · intro h
    simp [process_file, h]
  · intro ocr h1
    cases ocr with
    | exc => simp [process_file] at h1
    | ok o =>
      cases o with
      | none => simp [process_file] at h1
      | some t =>
        by_cases ht : t = []
        · rw [ht] at h1
          simp [process_file] at h1
        · cases idxExc with
          | true => simp [process_file, ht] at h1
          | false => exact ⟨t, ht, rfl, rfl⟩

theorem claim_C7_witness :
    process_file (fun _ => []) "s" (PyOutcome.ok (some "hi".data)) true "f.pdf" "f"
      "2025-01-01".data [] = (false, [], true) :=
  (claim_C7_process_file_totality (fun _ => []) "s" true "f.pdf" "f"
    "2025-01-01".data [] "hi".data).2.2.2.1 (by decide)

/-- C8 counterexample: the code does not merely strip SURROUNDING quotes
and periods — Python replace removes every occurrence — so a raw response
ver 1.2 is returned as ver 12, while the claimed surrounding-strip
post-processing would leave ver 1.2 unchanged. -/
theorem claim_C8_counterexample :
    get_ai_extraction (fun _ _ => PyOutcome.ok "ver 1.2".data) 2025 "ctx".data
      "which version".data = (some "ver 12".data, true)
    ∧ specCleanAnswer "ver 1.2".data = "ver 1.2".data
    ∧ ¬ ("ver 12".data = "ver 1.2".data) := by decide

/-- C8 (amended): the raw Gemini response is post-processed by stripping
surrounding whitespace and removing every double quote, single quote and
period character; if the cleaned response contains the sentinel None or
is longer than 50 characters the extractor yields no answer; and a raised
exception from the external capability is swallowed into no answer, never
propagated. -/
theorem claim_C8_llm_postprocessing (currentYear : Nat) (text query raw : List Char)
    (hdet : "age".data <:+: pyLower query →
      calculate_smart_age currentYear text = none) :
    get_ai_extraction (fun _ _ => PyOutcome.ok raw) currentYear text query
      = (if "None".data <:+: cleanAnswer raw ∨ (cleanAnswer raw).length > 50
          then none else some (cleanAnswer raw), true)
    ∧ get_ai_extraction (fun _ _ => PyOutcome.exc) currentYear text query
      = (none, true) := by
  have hdet2 : (if "age".data <:+: pyLower query
      then calculate_smart_age currentYear text else none) = none := by
    split
    · next hq => exact hdet hq
    · rfl
  constructor
  · unfold get_ai_extraction
    rw [hdet2]
    show (if "None".data <:+: cleanAnswer raw ∨ (cleanAnswer raw).length > 50
        then ((none : Option (List Char)), true)
        else (some (cleanAnswer raw), true))
      = (if "None".data <:+: cleanAnswer raw ∨ (cleanAnswer raw).length > 50
          then none else some (cleanAnswer raw), true)
    split
    · rfl
    · rfl
  · unfold get_ai_extraction
    rw [hdet2]

theorem claim_C8_witness :
    get_ai_extraction (fun _ _ => PyOutcome.ok " None ".data) 2025 "ctx".data
      "topic".data = (none, true)
    ∧ get_ai_extraction (fun _ _ => PyOutcome.exc) 2025 "ctx".data "topic".data
      = (none, true) :=
  ⟨((claim_C8_llm_postprocessing 2025 "ctx".data "topic".data " None ".data
      (by decide)).1).trans (by decide),
   (claim_C8_llm_postprocessing 2025 "ctx".data "topic".data " None ".data
      (by decide)).2⟩

/-- C9: the search endpoint never forwards the filters field of the
request to the retrieval engine — two requests identical except for
filters produce identical responses, in content and order. -/
theorem claim_C9_filters_never_forwarded (dist : List ℚ → List ℚ → ℚ)
    (embed : List Char → List ℚ)
    (llm : List Char → List Char → PyOutcome (List Char)) (currentYear : Nat)
    (store : List Entry) (q1 q2 : SearchQuery)
    (hq : q1.query = q2.query) (hl : q1.limit = q2.limit) :
    search_documents dist embed llm currentYear store q1
      = search_documents dist embed llm currentYear store q2 := by
  unfold search_documents
  rw [hq, hl]

theorem claim_C9_witness :
    search_documents (fun _ _ => 0) (fun _ => []) (fun _ _ => PyOutcome.exc) 2025 []
      { query := "q".data, filters := none, limit := 5 }
      = search_documents (fun _ _ => 0) (fun _ => []) (fun _ _ => PyOutcome.exc) 2025 []
        { query := "q".data, filters := some (fun _ => true), limit := 5 } :=
  claim_C9_filters_never_forwarded (fun _ _ => 0) (fun _ => [])
    (fun _ _ => PyOutcome.exc) 2025 [] _ _ rfl rfl

end CampusInsight
